import Mathlib

set_option maxHeartbeats 1600000

namespace Browser

/-!
Shallow embedding of the HTML-to-text converter of `src/main.rs`
(functions `html_to_text`, lines 195-304, and `decode_html_entity`,
lines 307-342).  Strings are modelled as `List Char`, matching the
`Vec<char>` the Rust code scans.  The scanner loop is embedded as a
fuel-indexed structural recursion `scanA`; the fuel is initialised to
the input length, which is sufficient because every loop iteration of
the source consumes at least one character (`i += 1` or
`i += end_pos + 1`).  `scanA_fuel_irrel` below shows the fuel bound is
irrelevant as long as it dominates the input length, so `scan` is the
exact loop of the source.
-/

/-- Unicode White_Space test, the semantics of Rust `char::is_whitespace`
(and of `str::trim`): U+0009..U+000D, U+0020, U+0085, U+00A0, U+1680,
U+2000..U+200A, U+2028, U+2029, U+202F, U+205F, U+3000. -/
def isWs (c : Char) : Bool :=
  decide ((9 ≤ c.toNat ∧ c.toNat ≤ 13) ∨ c.toNat = 32 ∨ c.toNat = 133 ∨
    c.toNat = 160 ∨ c.toNat = 5760 ∨ (8192 ≤ c.toNat ∧ c.toNat ≤ 8202) ∨
    c.toNat = 8232 ∨ c.toNat = 8233 ∨ c.toNat = 8239 ∨ c.toNat = 8287 ∨
    c.toNat = 12288)

/-- ASCII lowercasing of one character.  The source uses Rust
`str::to_lowercase` (full Unicode); on every comparison the converter
performs (against the ASCII tag names br, p, div, h1..h6, li, tr,
script, style and their closing forms) the two agree, because no
non-ASCII character has a Unicode lowercase mapping equal to any ASCII
letter occurring in those names. -/
def toLowerChar (c : Char) : Char :=
  if 65 ≤ c.toNat ∧ c.toNat ≤ 90 then Char.ofNat (c.toNat + 32) else c

/-- Lowercasing of a whole buffer, the `tag_name.to_lowercase()` of line 219. -/
def lowerAll (l : List Char) : List Char := l.map toLowerChar

/-- List version of Rust `str::starts_with`: `hdMatch pat l` holds when
`pat` is an initial segment of `l`. -/
def hdMatch : List Char → List Char → Bool
  | [], _ => true
  | _ :: _, [] => false
  | p :: ps, c :: cs => p = c && hdMatch ps cs

/-- List version of Rust `str::ends_with(c)` for a single character. -/
def lastIs (c : Char) (l : List Char) : Bool :=
  decide (l.getLast? = some c)

/-- Whether the final character of a buffer is whitespace; models
`decoded.chars().last().map(|c| c.is_whitespace()).unwrap_or(false)`
of line 268. -/
def wsLast (l : List Char) : Bool :=
  match l.getLast? with
  | some c => isWs c
  | none => false

/-- Rust `char::to_digit(radix)` restricted to the radices 10 and 16
used by the source: value of a digit character, if valid in the radix. -/
def digitVal (radix : Nat) (c : Char) : Option Nat :=
  let v :=
    if 48 ≤ c.toNat ∧ c.toNat ≤ 57 then some (c.toNat - 48)
    else if 97 ≤ c.toNat ∧ c.toNat ≤ 122 then some (c.toNat - 97 + 10)
    else if 65 ≤ c.toNat ∧ c.toNat ≤ 90 then some (c.toNat - 65 + 10)
    else none
  match v with
  | some d => if d < radix then some d else none
  | none => none

/-- Accumulating digit parse; `none` on the first invalid digit. -/
def parseDigitsAux (radix : Nat) (acc : Nat) : List Char → Option Nat
  | [] => some acc
  | c :: cs =>
    match digitVal radix c with
    | some d => parseDigitsAux radix (acc * radix + d) cs
    | none => none

/-- Rust `u32::from_str_radix` / `str::parse::<u32>` on a character
list: an optional leading plus sign, then at least one digit of the
radix, with the value required to fit in 32 bits (Rust reports
overflow as an error).  A leading minus sign is rejected for unsigned
types, as in Rust. -/
def parseU32Radix (radix : Nat) (s : List Char) : Option Nat :=
  let digits := match s with
    | '+' :: rest => rest
    | _ => s
  match digits with
  | [] => none
  | _ =>
    match parseDigitsAux radix 0 digits with
    | some v => if v < 4294967296 then some v else none
    | none => none

/-- Rust `char::from_u32`: succeeds exactly on Unicode scalar values
(below 0x110000 and outside the surrogate range 0xD800..0xDFFF). -/
def charFromU32 (n : Nat) : Option Char :=
  if n < 55296 then some (Char.ofNat n)
  else if n < 57344 then none
  else if n < 1114112 then some (Char.ofNat n)
  else none

/-- Embedding of `decode_html_entity` (src/main.rs lines 307-342):
a case-sensitive match against the thirteen named entities, then the
`&#x<hex>;` branch, then the `&#<dec>;` branch, and otherwise the
candidate itself unchanged.  The slice `entity[3..len-1]` of the source
is `(entity.drop 3).dropLast` here; the byte offsets 3 (after the ASCII
prefix) and len-1 (before the ASCII final semicolon, guaranteed by the
`ends_with` test) are always character boundaries, so the slices agree. -/
def decodeHtmlEntity (entity : List Char) : List Char :=
  if entity = "&nbsp;".data then " ".data
  else if entity = "&lt;".data then "<".data
  else if entity = "&gt;".data then ">".data
  else if entity = "&amp;".data then "&".data
  else if entity = "&quot;".data then "\"".data
  else if entity = "&apos;".data then "\x27".data
  else if entity = "&copy;".data then "©".data
  else if entity = "&reg;".data then "®".data
  else if entity = "&trade;".data then "™".data
  else if entity = "&mdash;".data then "—".data
  else if entity = "&ndash;".data then "–".data
  else if entity = "&hellip;".data then "…".data
  else if entity = "&bull;".data then "•".data
  else if hdMatch "&#x".data entity && lastIs ';' entity then
    match parseU32Radix 16 ((entity.drop 3).dropLast) with
    | some code =>
      match charFromU32 code with
      | some c => [c]
      | none => entity
    | none => entity
  else if hdMatch "&#".data entity && lastIs ';' entity then
    match parseU32Radix 10 ((entity.drop 2).dropLast) with
    | some code =>
      match charFromU32 code with
      | some c => [c]
      | none => entity
    | none => entity
  else entity

/-- The mutable locals of `html_to_text` (lines 196-201). -/
structure ScanState where
  result : List Char
  in_tag : Bool
  in_script : Bool
  in_style : Bool
  tag_name : List Char
  last_char_was_space : Bool
deriving DecidableEq

/-- Initial state of the scan: empty buffers, all flags false. -/
def initState : ScanState :=
  { result := [], in_tag := false, in_script := false, in_style := false,
    tag_name := [], last_char_was_space := false }

/-- The block-level tag names of the `matches!` at lines 225-229. -/
def blockTags : List (List Char) :=
  ["p", "/p", "div", "/div", "h1", "/h1", "h2", "/h2", "h3", "/h3",
   "h4", "/h4", "h5", "/h5", "h6", "/h6", "li", "/li", "tr", "/tr"].map String.data

/-- Handling of a closing angle bracket while inside a tag
(lines 217-247): leave tag mode, lowercase the buffered name, insert a
newline for br spellings unconditionally or for block tags when the
output does not already end in a newline, toggle the script/style
flags, and clear the tag buffer. -/
def processTag (st : ScanState) : ScanState :=
  let tagLower := lowerAll st.tag_name
  let st1 : ScanState := { st with in_tag := false }
  let st2 : ScanState :=
    if tagLower = "br".data ∨ tagLower = "br/".data ∨ tagLower = "br /".data then
      { st1 with result := st1.result ++ ['\n'], last_char_was_space := true }
    else if tagLower ∈ blockTags then
      if st1.result.getLast? = some '\n' then
        { st1 with last_char_was_space := true }
      else
        { st1 with result := st1.result ++ ['\n'], last_char_was_space := true }
    else st1
  let st3 : ScanState :=
    if tagLower = "script".data then { st2 with in_script := true }
    else if tagLower = "/script".data then { st2 with in_script := false }
    else if tagLower = "style".data then { st2 with in_style := true }
    else if tagLower = "/style".data then { st2 with in_style := false }
    else st2
  { st3 with tag_name := [] }

/-- Whitespace-normalised append of one text character (lines 274-283):
whitespace is dropped if the previous appended character was
space-equivalent or the output is still empty, and otherwise becomes a
single space; any other character is appended verbatim. -/
def textStep (st : ScanState) (c : Char) : ScanState :=
  if isWs c then
    if st.last_char_was_space = false ∧ st.result ≠ [] then
      { st with result := st.result ++ [' '], last_char_was_space := true }
    else st
  else
    { st with result := st.result ++ [c], last_char_was_space := false }

/-- Position of the first semicolon, the
`chars[i..].iter().position(|&x| x == ';')` of line 263. -/
def firstSemi : List Char → Option Nat
  | [] => none
  | c :: rest => if c = ';' then some 0 else (firstSemi rest).map (· + 1)

/-- One pass of the scanning loop of `html_to_text` (lines 206-286),
indexed by fuel.  The branch order is that of the source: a left angle
bracket always (re)enters tag mode; inside a tag characters accumulate
into the tag buffer until the closing bracket; inside a script or
style body characters are skipped; an ampersand with a later semicolon
consumes the whole span through that semicolon as one entity
candidate; everything else goes through whitespace normalisation. -/
def scanA : Nat → ScanState → List Char → ScanState
  | _, st, [] => st
  | 0, st, _ :: _ => st
  | fuel + 1, st, c :: rest =>
    if c = '<' then
      scanA fuel { st with in_tag := true, tag_name := [] } rest
    else if st.in_tag then
      if c = '>' then scanA fuel (processTag st) rest
      else scanA fuel { st with tag_name := st.tag_name ++ [c] } rest
    else if st.in_script ∨ st.in_style then
      scanA fuel st rest
    else if c = '&' then
      match firstSemi (c :: rest) with
      | some endPos =>
        scanA fuel
          { st with
            result := st.result ++ decodeHtmlEntity ((c :: rest).take (endPos + 1)),
            last_char_was_space := wsLast (decodeHtmlEntity ((c :: rest).take (endPos + 1))) }
          ((c :: rest).drop (endPos + 1))
      | none => scanA fuel (textStep st c) rest
    else scanA fuel (textStep st c) rest

/-- The scanning loop itself: fuel equal to the input length is always
enough, because each iteration consumes at least one character. -/
def scan (st : ScanState) (l : List Char) : ScanState :=
  scanA l.length st l

/-- Rust `str::trim`: drop leading and trailing `char::is_whitespace`
characters. -/
def trimBoth (l : List Char) : List Char :=
  (((l.dropWhile isWs).reverse.dropWhile isWs)).reverse

/-- The cleanup loop of lines 289-301: drop a newline whose previously
emitted character was also a newline. -/
def cleanNewlinesAux : Bool → List Char → List Char
  | _, [] => []
  | prev, c :: rest =>
    if c = '\n' then
      if prev then cleanNewlinesAux true rest
      else c :: cleanNewlinesAux true rest
    else c :: cleanNewlinesAux false rest

/-- Embedding of `html_to_text` (lines 195-304): run the scan from the
initial state, trim the accumulated output, and collapse consecutive
newlines. -/
def htmlToText (html : List Char) : List Char :=
  cleanNewlinesAux false (trimBoth (scan initState html).result)


/-- Specification-side normalisation used by claim C6, written from the
claim's words: every maximal run of whitespace characters is replaced
by a single space.  Removal of leading and trailing whitespace is
expressed by composing with trimBoth in the theorem. -/
def collapseRuns : List Char → List Char
  | [] => []
  | c :: rest =>
    if isWs c then ' ' :: collapseRuns (rest.dropWhile isWs)
    else c :: collapseRuns rest
termination_by l => l.length
decreasing_by
  · simp only [List.length_cons]
    exact Nat.lt_succ_of_le ((List.dropWhile_suffix isWs).sublist.length_le)
  · simp only [List.length_cons]
    exact Nat.lt_succ_self _

/-- Space collapse with an explicit last-was-space flag; the bridge
between the scanner's per-character whitespace normalisation and
collapseRuns. -/
def collapse2 : Bool → List Char → List Char
  | _, [] => []
  | flag, c :: rest =>
    if isWs c then
      if flag then collapse2 true rest else ' ' :: collapse2 true rest
    else c :: collapse2 false rest

/-- The thirteen named-entity spellings of the table in
decode_html_entity, in source order. -/
def namedEntities : List (List Char) :=
  ["&nbsp;", "&lt;", "&gt;", "&amp;", "&quot;", "&apos;", "&copy;", "&reg;",
   "&trade;", "&mdash;", "&ndash;", "&hellip;", "&bull;"].map String.data

/-- The character produced by a well-formed hexadecimal numeric
reference: shape &#x...; with the digit part parsing as a 32-bit hex
number whose value is a Unicode scalar value. -/
def hexRefChar (e : List Char) : Option Char :=
  if hdMatch "&#x".data e && lastIs ';' e then
    match parseU32Radix 16 ((e.drop 3).dropLast) with
    | some code => charFromU32 code
    | none => none
  else none

/-- The character produced by a well-formed decimal numeric reference;
the decimal branch of the source is only reachable when the hex prefix
is absent. -/
def decRefChar (e : List Char) : Option Char :=
  if !hdMatch "&#x".data e && hdMatch "&#".data e && lastIs ';' e then
    match parseU32Radix 10 ((e.drop 2).dropLast) with
    | some code => charFromU32 code
    | none => none
  else none

/-- Whether a character list contains two adjacent newline characters. -/
def hasDoubleNewline : List Char → Bool
  | a :: b :: rest => (decide (a = '\n') && decide (b = '\n')) || hasDoubleNewline (b :: rest)
  | _ => false

end Browser

namespace Browser

theorem scanA_nil (f : Nat) (st : ScanState) : scanA f st [] = st := by
  cases f <;> rfl

theorem scanA_succ (f : Nat) (st : ScanState) (c : Char) (rest : List Char) :
    scanA (f + 1) st (c :: rest) =
      if c = '<' then scanA f { st with in_tag := true, tag_name := [] } rest
      else if st.in_tag then
        if c = '>' then scanA f (processTag st) rest
        else scanA f { st with tag_name := st.tag_name ++ [c] } rest
      else if st.in_script ∨ st.in_style then scanA f st rest
      else if c = '&' then
        match firstSemi (c :: rest) with
        | some endPos =>
          scanA f
            { st with
              result := st.result ++ decodeHtmlEntity ((c :: rest).take (endPos + 1)),
              last_char_was_space := wsLast (decodeHtmlEntity ((c :: rest).take (endPos + 1))) }
            ((c :: rest).drop (endPos + 1))
        | none => scanA f (textStep st c) rest
      else scanA f (textStep st c) rest := rfl

theorem scanA_fuel_irrel : ∀ (n f g : Nat) (st : ScanState) (l : List Char),
    l.length ≤ n → l.length ≤ f → l.length ≤ g → scanA f st l = scanA g st l := by
  intro n
  induction n with
  | zero =>
    intro f g st l hn _ _
    have hl : l = [] := List.length_eq_zero.mp (Nat.le_zero.mp hn)
    subst hl
    rw [scanA_nil, scanA_nil]
  | succ n ih =>
    intro f g st l hn hf hg
    cases l with
    | nil => rw [scanA_nil, scanA_nil]
    | cons c rest =>
      simp only [List.length_cons] at hn hf hg
      obtain ⟨f1, rfl⟩ : ∃ f1, f = f1 + 1 := ⟨f - 1, by omega⟩
      obtain ⟨g1, rfl⟩ : ∃ g1, g = g1 + 1 := ⟨g - 1, by omega⟩
      rw [scanA_succ, scanA_succ]
      have hrest : rest.length ≤ n := by omega
      have hrf : rest.length ≤ f1 := by omega
      have hrg : rest.length ≤ g1 := by omega
      by_cases h1 : c = '<'
      · simp only [if_pos h1]; exact ih f1 g1 _ _ hrest hrf hrg
      · simp only [if_neg h1]
        by_cases h2 : st.in_tag = true
        · simp only [if_pos h2]
          by_cases h3 : c = '>'
          · simp only [if_pos h3]; exact ih _ _ _ _ hrest hrf hrg
          · simp only [if_neg h3]; exact ih _ _ _ _ hrest hrf hrg
        · simp only [if_neg h2]
          by_cases h4 : st.in_script = true ∨ st.in_style = true
          · simp only [if_pos h4]; exact ih _ _ _ _ hrest hrf hrg
          · simp only [if_neg h4]
            by_cases h5 : c = '&'
            · simp only [if_pos h5]
              cases hsemi : firstSemi (c :: rest) with
              | none => exact ih _ _ _ _ hrest hrf hrg
              | some endPos =>
                apply ih
                · simp only [List.length_drop, List.length_cons]; omega
                · simp only [List.length_drop, List.length_cons]; omega
                · simp only [List.length_drop, List.length_cons]; omega
            · simp only [if_neg h5]; exact ih _ _ _ _ hrest hrf hrg

theorem scan_step_lt (st : ScanState) (rest : List Char) :
    scan st ('<' :: rest) = scan { st with in_tag := true, tag_name := [] } rest := by
  show scanA (rest.length + 1) st ('<' :: rest) = _
  rw [scanA_succ, if_pos rfl]
  rfl

theorem scan_step_tagclose (st : ScanState) (rest : List Char) (htag : st.in_tag = true) :
    scan st ('>' :: rest) = scan (processTag st) rest := by
  show scanA (rest.length + 1) st ('>' :: rest) = _
  rw [scanA_succ, if_neg (by decide : ¬('>' = '<')), if_pos htag, if_pos rfl]
  rfl

theorem scan_step_tagchar (st : ScanState) (c : Char) (rest : List Char)
    (htag : st.in_tag = true) (h1 : c ≠ '<') (h2 : c ≠ '>') :
    scan st (c :: rest) = scan { st with tag_name := st.tag_name ++ [c] } rest := by
  show scanA (rest.length + 1) st (c :: rest) = _
  rw [scanA_succ, if_neg h1, if_pos htag, if_neg h2]
  rfl

theorem scan_step_skip (st : ScanState) (c : Char) (rest : List Char)
    (htag : st.in_tag = false) (hss : st.in_script = true ∨ st.in_style = true)
    (h1 : c ≠ '<') :
    scan st (c :: rest) = scan st rest := by
  show scanA (rest.length + 1) st (c :: rest) = _
  rw [scanA_succ, if_neg h1, if_neg (by simp [htag]), if_pos hss]
  rfl

theorem scan_step_text (st : ScanState) (c : Char) (rest : List Char)
    (h1 : c ≠ '<') (htag : st.in_tag = false) (hsc : st.in_script = false)
    (hst : st.in_style = false) (h5 : c ≠ '&') :
    scan st (c :: rest) = scan (textStep st c) rest := by
  show scanA (rest.length + 1) st (c :: rest) = _
  rw [scanA_succ, if_neg h1, if_neg (by simp [htag]), if_neg (by simp [hsc, hst]),
    if_neg h5]
  rfl

theorem scan_step_amp_none (st : ScanState) (rest : List Char)
    (htag : st.in_tag = false) (hsc : st.in_script = false) (hst : st.in_style = false)
    (hsemi : firstSemi ('&' :: rest) = none) :
    scan st ('&' :: rest) = scan (textStep st '&') rest := by
  show scanA (rest.length + 1) st ('&' :: rest) = _
  rw [scanA_succ, if_neg (by decide : ¬('&' = '<')), if_neg (by simp [htag]),
    if_neg (by simp [hsc, hst]), if_pos rfl, hsemi]
  rfl

theorem scan_step_amp (st : ScanState) (rest : List Char) (endPos : Nat)
    (htag : st.in_tag = false) (hsc : st.in_script = false) (hst : st.in_style = false)
    (hsemi : firstSemi ('&' :: rest) = some endPos) :
    scan st ('&' :: rest) =
      scan
        { st with
          result := st.result ++ decodeHtmlEntity (('&' :: rest).take (endPos + 1)),
          last_char_was_space := wsLast (decodeHtmlEntity (('&' :: rest).take (endPos + 1))) }
        (('&' :: rest).drop (endPos + 1)) := by
  show scanA (rest.length + 1) st ('&' :: rest) = _
  rw [scanA_succ, if_neg (by decide : ¬('&' = '<')), if_neg (by simp [htag]),
    if_neg (by simp [hsc, hst]), if_pos rfl, hsemi]
  exact scanA_fuel_irrel rest.length rest.length _ _ _
    (by simp only [List.length_drop, List.length_cons]; omega)
    (by simp only [List.length_drop, List.length_cons]; omega)
    (le_refl _)

end Browser

namespace Browser

theorem scan_nil (st : ScanState) : scan st [] = st := rfl

theorem firstSemi_append (pre r : List Char) (h : ';' ∉ pre) :
    firstSemi (pre ++ ';' :: r) = some pre.length := by
  induction pre with
  | nil => simp [firstSemi]
  | cons a t ih =>
    have ha : ¬(a = ';') := fun e => h (e ▸ List.mem_cons_self a t)
    have ht : ';' ∉ t := fun m => h (List.mem_cons_of_mem a m)
    simp [firstSemi, ha, ih ht]

theorem take_append_cons (pre : List Char) (x : Char) (r : List Char) :
    (pre ++ x :: r).take (pre.length + 1) = pre ++ [x] := by
  induction pre with
  | nil => simp
  | cons a t ih => simp [ih]

theorem drop_append_cons (pre : List Char) (x : Char) (r : List Char) :
    (pre ++ x :: r).drop (pre.length + 1) = r := by
  induction pre with
  | nil => simp
  | cons a t ih => simp [ih]

theorem processTag_closeStyle (st : ScanState) (h : lowerAll st.tag_name = "/style".data) :
    processTag st = { st with in_tag := false, in_style := false, tag_name := [] } := by
  simp [processTag, h, blockTags]

theorem scan_inTag_result (t : List Char) : ∀ st : ScanState, st.in_tag = true →
    '>' ∉ t → (scan st t).result = st.result := by
  induction t with
  | nil => intro st _ _; rfl
  | cons c r ih =>
    intro st htag hmem
    have hc : c ≠ '>' := fun e => hmem (e ▸ List.mem_cons_self c r)
    have hr : '>' ∉ r := fun m => hmem (List.mem_cons_of_mem c m)
    by_cases h1 : c = '<'
    · subst h1
      rw [scan_step_lt]
      exact ih _ rfl hr
    · rw [scan_step_tagchar st c r htag h1 hc]
      exact ih _ htag hr

end Browser

namespace Browser

/-- C1: on the input of the specification's end-to-end example the
converter returns exactly the two-line text of the example, with a
single separating newline and no leading or trailing whitespace. -/
theorem c1_end_to_end_example :
    htmlToText "<p>Hello &amp; welcome</p><br><div>Next <b>line</b>.</div>".data =
      "Hello & welcome\nNext line.".data := by
  rfl

/-- C2, counterexample: the claim asserts that after a closing style
tag the scanner is back in Text state and subsequent text characters
are appended, for every input, including a script tag occurring inside
a style body.  On this input the script flag set inside the style body
survives the closing style tag, so the final z is dropped and the
output is empty instead of containing z. -/
theorem c2_counterexample :
    htmlToText "<style><script></style>z".data = [] := by
  rfl

/-- C2, amended: the scanner keeps three independent boolean flags
rather than one four-valued state.  Processing a tag whose lowercased
name is /style always clears the style flag, leaves tag mode, and
preserves the script flag; a subsequent ordinary text character is
appended exactly when the script flag is also clear, and is dropped
when the script flag is still set (as happens when a script tag
occurred inside the style body). -/
theorem c2_amended_independent_flags (st : ScanState) (c : Char)
    (hname : lowerAll st.tag_name = "/style".data)
    (hc1 : c ≠ '<') (hc2 : c ≠ '&') (hws : isWs c = false) :
    (processTag st).in_style = false ∧ (processTag st).in_script = st.in_script ∧
      (processTag st).in_tag = false ∧
      (st.in_script = false →
        (scan (processTag st) [c]).result = (processTag st).result ++ [c]) ∧
      (st.in_script = true → (scan (processTag st) [c]).result = (processTag st).result) := by
  rw [processTag_closeStyle st hname]
  refine ⟨rfl, rfl, rfl, ?_, ?_⟩
  · intro hsc
    rw [scan_step_text
        { result := st.result, in_tag := false, in_script := st.in_script,
          in_style := false, tag_name := [], last_char_was_space := st.last_char_was_space }
        c [] hc1 rfl hsc rfl hc2, scan_nil]
    simp [textStep, hws]
  · intro hsc
    rw [scan_step_skip
        { result := st.result, in_tag := false, in_script := st.in_script,
          in_style := false, tag_name := [], last_char_was_space := st.last_char_was_space }
        c [] rfl (Or.inl hsc) hc1, scan_nil]

theorem c2_amended_independent_flags_witness :
    lowerAll "/STYLE".data = "/style".data ∧
      (processTag
          { result := [], in_tag := true, in_script := true, in_style := true,
            tag_name := "/STYLE".data, last_char_was_space := false }).in_style = false :=
  ⟨by decide,
    (c2_amended_independent_flags
        { result := [], in_tag := true, in_script := true, in_style := true,
          tag_name := "/STYLE".data, last_char_was_space := false }
        'z' (by decide) (by decide) (by decide) (by decide)).1⟩

/-- C4, counterexample: the claim asserts that every input containing
a br tag gets exactly one newline in the final output for it; here the
newline appended for the br is trailing, the cleanup pass trims it,
and the final output contains no newline at all. -/
theorem c4_counterexample :
    htmlToText "a<br>".data = "a".data := by
  rfl

/-- C4, amended: each of the spellings br, br/, and br / (after
lowercasing, hence in any character case) appends exactly one newline
to the main-pass output buffer unconditionally and marks the
whitespace flag; the final output may show fewer newlines because the
cleanup pass merges adjacent newlines and trims the ends. -/
theorem c4_amended_br_appends_newline (st : ScanState)
    (h : lowerAll st.tag_name = "br".data ∨ lowerAll st.tag_name = "br/".data ∨
      lowerAll st.tag_name = "br /".data) :
    (processTag st).result = st.result ++ ['\n'] ∧
      (processTag st).last_char_was_space = true := by
  rcases h with h | h | h <;> simp [processTag, h, blockTags]

theorem c4_amended_br_appends_newline_witness :
    lowerAll "BR/".data = "br/".data ∧
      (processTag
          { result := "a".data, in_tag := true, in_script := false, in_style := false,
            tag_name := "BR/".data, last_char_was_space := false }).result =
        "a".data ++ ['\n'] :=
  ⟨by decide,
    (c4_amended_br_appends_newline
        { result := "a".data, in_tag := true, in_script := false, in_style := false,
          tag_name := "BR/".data, last_char_was_space := false }
        (Or.inr (Or.inl (by decide)))).1⟩

/-- C8: when the scanner meets a left angle bracket whose remaining
input contains no closing bracket, the characters buffered for the
dangling tag never reach the output: the scan result is unchanged from
the state before the bracket, whatever that state was; in particular
the example input abc followed by an unterminated div tag yields
exactly abc. -/
theorem c8_unterminated_tag (st : ScanState) (t : List Char) (h : '>' ∉ t) :
    (scan st ('<' :: t)).result = st.result ∧
      htmlToText "abc<div".data = "abc".data := by
  constructor
  · rw [scan_step_lt]
    exact scan_inTag_result t _ rfl h
  · rfl

theorem c8_unterminated_tag_witness :
    ('>' ∉ "div".data) ∧ (scan initState ('<' :: "div".data)).result = initState.result :=
  ⟨by decide, (c8_unterminated_tag initState "div".data (by decide)).1⟩

/-- C10: an ampersand met in text state with a later semicolon
consumes the whole span through the first semicolon as one entity
candidate in a single scan step: whatever characters the span contains
(including tag delimiters and whitespace), the step appends exactly
the decoder's output for the span — the literal span itself when the
lookup fails — performs no tag recognition and no whitespace
normalisation inside the span, and resumes after the semicolon; on the
concrete input of the claim the tag-like sequence inside the span is
emitted verbatim with no newline. -/
theorem c10_entity_span_swallows_tags (st : ScanState) (pre rest : List Char)
    (htag : st.in_tag = false) (hsc : st.in_script = false) (hst : st.in_style = false)
    (hp : ';' ∉ pre) :
    scan st ('&' :: (pre ++ ';' :: rest)) =
      scan
        { st with
          result := st.result ++ decodeHtmlEntity ('&' :: pre ++ [';']),
          last_char_was_space := wsLast (decodeHtmlEntity ('&' :: pre ++ [';'])) }
        rest ∧
      htmlToText "&x<br>;".data = "&x<br>;".data := by
  refine ⟨?_, by rfl⟩
  have hsemi : firstSemi ('&' :: (pre ++ ';' :: rest)) = some (pre.length + 1) := by
    simp only [firstSemi, if_neg (show ¬('&' = ';') by decide),
      firstSemi_append pre rest hp, Option.map_some']
  have htake : ('&' :: (pre ++ ';' :: rest)).take (pre.length + 1 + 1) = '&' :: pre ++ [';'] := by
    simp only [List.take_succ_cons, take_append_cons, List.cons_append]
  have hdrop : ('&' :: (pre ++ ';' :: rest)).drop (pre.length + 1 + 1) = rest := by
    simp only [List.drop_succ_cons, drop_append_cons]
  rw [scan_step_amp st (pre ++ ';' :: rest) (pre.length + 1) htag hsc hst hsemi,
    htake, hdrop]

theorem c10_entity_span_swallows_tags_witness :
    (';' ∉ "x<br>".data) ∧
      scan initState ('&' :: ("x<br>".data ++ ';' :: [])) =
        scan
          { initState with
            result := initState.result ++ decodeHtmlEntity ('&' :: "x<br>".data ++ [';']),
            last_char_was_space := wsLast (decodeHtmlEntity ('&' :: "x<br>".data ++ [';'])) }
          [] :=
  ⟨by decide,
    (c10_entity_span_swallows_tags initState "x<br>".data [] rfl rfl rfl (by decide)).1⟩

end Browser

namespace Browser

/-- C5, counterexample: the claim says a candidate whose digits
portion is not composed of digits of the stated base is left verbatim;
but Rust's unsigned integer parsing accepts one optional leading plus
sign, so the candidate below — whose digits portion +65 is not
composed of decimal digits — decodes to A instead of staying
verbatim. -/
theorem c5_counterexample :
    decodeHtmlEntity "&#+65;".data = "A".data := by
  rfl

/-- C5, amended: an entity candidate that is not an exact
case-sensitive Entity Table name and is not a numeric reference of
the form &#x(hex); or &#(dec); — where the digit string may carry one
optional leading plus sign, must parse to a value below 2 to the 32,
and must denote a legal Unicode scalar value — is substituted as its
literal original text unchanged, including the leading ampersand and
final semicolon; in particular the hex candidate with digits zz stays
verbatim. -/
theorem c5_amended_literal_fallback (e : List Char) (h1 : e ∉ namedEntities)
    (h2 : hexRefChar e = none) (h3 : decRefChar e = none) :
    decodeHtmlEntity e = e ∧ decodeHtmlEntity "&#xzz;".data = "&#xzz;".data := by
  refine ⟨?_, by rfl⟩
  simp only [namedEntities, List.map_cons, List.map_nil, List.mem_cons,
    List.not_mem_nil, or_false] at h1
  push_neg at h1
  obtain ⟨n1, n2, n3, n4, n5, n6, n7, n8, n9, n10, n11, n12, n13⟩ := h1
  unfold decodeHtmlEntity
  rw [if_neg n1, if_neg n2, if_neg n3, if_neg n4, if_neg n5, if_neg n6, if_neg n7,
    if_neg n8, if_neg n9, if_neg n10, if_neg n11, if_neg n12, if_neg n13]
  by_cases hx : (hdMatch "&#x".data e && lastIs ';' e) = true
  · rw [if_pos hx]
    unfold hexRefChar at h2
    rw [if_pos hx] at h2
    cases hp : parseU32Radix 16 ((e.drop 3).dropLast) with
    | none => simp only [hp]
    | some code =>
      simp only [hp] at h2 ⊢
      cases hc : charFromU32 code with
      | none => simp only [hc]
      | some ch =>
        rw [hc] at h2
        exact absurd h2 (by simp)
  · rw [if_neg hx]
    by_cases hd : (hdMatch "&#".data e && lastIs ';' e) = true
    · rw [if_pos hd]
      have hd2 := hd
      simp only [Bool.and_eq_true] at hd2
      have hx3 : hdMatch "&#x".data e = false := by
        cases hxe : hdMatch "&#x".data e
        · rfl
        · exact absurd (by rw [hxe, Bool.true_and]; exact hd2.2) hx
      unfold decRefChar at h3
      rw [if_pos (by rw [hx3]; simp [hd2.1, hd2.2])] at h3
      cases hp : parseU32Radix 10 ((e.drop 2).dropLast) with
      | none => simp only [hp]
      | some code =>
        simp only [hp] at h3 ⊢
        cases hc : charFromU32 code with
        | none => simp only [hc]
        | some ch =>
          rw [hc] at h3
          exact absurd h3 (by simp)
    · rw [if_neg hd]

theorem c5_amended_literal_fallback_witness :
    ("&zzz;".data ∉ namedEntities) ∧ decodeHtmlEntity "&zzz;".data = "&zzz;".data :=
  ⟨by decide,
    (c5_amended_literal_fallback "&zzz;".data (by decide) (by decide) (by decide)).1⟩

end Browser

namespace Browser

theorem processTag_script (st : ScanState) (h : lowerAll st.tag_name = "script".data) :
    processTag st = { st with in_tag := false, in_script := true, tag_name := [] } := by
  simp [processTag, h, blockTags]

theorem processTag_closeScript (st : ScanState) (h : lowerAll st.tag_name = "/script".data) :
    processTag st = { st with in_tag := false, in_script := false, tag_name := [] } := by
  simp [processTag, h, blockTags]

theorem processTag_style (st : ScanState) (h : lowerAll st.tag_name = "style".data) :
    processTag st = { st with in_tag := false, in_style := true, tag_name := [] } := by
  simp [processTag, h, blockTags]

theorem scanWrapTag (o : List Char) : ∀ (st : ScanState) (tl : List Char),
    st.in_tag = true → '<' ∉ o → '>' ∉ o →
    scan st (o ++ '>' :: tl) = scan (processTag { st with tag_name := st.tag_name ++ o }) tl := by
  induction o with
  | nil =>
    intro st tl htag _ _
    rw [List.nil_append, scan_step_tagclose st tl htag]
    exact congrArg (fun s => scan s tl) (congrArg processTag (by cases st; simp))
  | cons a o2 ih =>
    intro st tl htag hmem1 hmem2
    have ha1 : a ≠ '<' := fun e => hmem1 (e ▸ List.mem_cons_self a o2)
    have ha2 : a ≠ '>' := fun e => hmem2 (e ▸ List.mem_cons_self a o2)
    have ho1 : '<' ∉ o2 := fun m => hmem1 (List.mem_cons_of_mem a m)
    have ho2 : '>' ∉ o2 := fun m => hmem2 (List.mem_cons_of_mem a m)
    rw [List.cons_append, scan_step_tagchar st a (o2 ++ '>' :: tl) htag ha1 ha2,
      ih { st with tag_name := st.tag_name ++ [a] } tl htag ho1 ho2]
    exact congrArg (fun s => scan s tl) (congrArg processTag (by cases st; simp))

theorem bodySkip (body : List Char) : ∀ (st : ScanState) (tl : List Char),
    st.in_tag = false → (st.in_script = true ∨ st.in_style = true) → '<' ∉ body →
    scan st (body ++ tl) = scan st tl := by
  induction body with
  | nil => intro st tl _ _ _; rw [List.nil_append]
  | cons c r ih =>
    intro st tl htag hss hmem
    have hc : c ≠ '<' := fun e => hmem (e ▸ List.mem_cons_self c r)
    have hr : '<' ∉ r := fun m => hmem (List.mem_cons_of_mem c m)
    rw [List.cons_append, scan_step_skip st c (r ++ tl) htag hss hc]
    exact ih st tl htag hss hr

/-- C3, counterexample: the claim asserts that for every input the
characters lying between a script opening tag and its closing tag are
never appended.  Here the text between the script open tag and the
close tag is a single semicolon, yet the output contains it (together
with the whole opening-tag text): the ampersand before the opening tag
swallows the span through the first semicolon as one entity candidate,
the candidate fails every lookup and is appended verbatim, and script
body mode never engages. -/
theorem c3_counterexample :
    htmlToText "&<script>;</script>z".data = "&<script>;z".data := by
  rfl

/-- C3, amended: when the scanner reaches the opening angle bracket of
a script (or style) element in an ordinary text position — outside any
tag, outside script and style body mode, with the tag buffer empty,
and not inside an entity candidate's span — and the element's body
contains no further left angle bracket, then processing the whole
element (opening tag in any character case, body, closing tag in any
character case) returns the scanner to exactly the state it held
before the element: the body's characters are entirely absent from the
output, never appended, and its ampersand sequences are never decoded.
Both restrictions are forced by counterexamples: an ampersand before
the opening tag can swallow the tag into an entity candidate so that
body characters are appended (c3_counterexample), and a tag-like
sequence such as br inside the body is processed as a tag and can
append a newline to the output. -/
theorem c3_amended_script_style_element :
    (∀ (st : ScanState) (o cl body rest : List Char),
        st.in_tag = false → st.in_script = false → st.in_style = false →
        st.tag_name = [] →
        lowerAll o = "script".data → lowerAll cl = "/script".data →
        '<' ∉ o → '>' ∉ o → '<' ∉ cl → '>' ∉ cl → '<' ∉ body →
        scan st ('<' :: (o ++ '>' :: (body ++ '<' :: (cl ++ '>' :: rest)))) =
          scan st rest) ∧
    (∀ (st : ScanState) (o cl body rest : List Char),
        st.in_tag = false → st.in_script = false → st.in_style = false →
        st.tag_name = [] →
        lowerAll o = "style".data → lowerAll cl = "/style".data →
        '<' ∉ o → '>' ∉ o → '<' ∉ cl → '>' ∉ cl → '<' ∉ body →
        scan st ('<' :: (o ++ '>' :: (body ++ '<' :: (cl ++ '>' :: rest)))) =
          scan st rest) := by
  constructor
  · intro st o cl body rest htag hsc hsst htn ho hc h1 h2 h3 h4 hb
    have e1 : scan st ('<' :: (o ++ '>' :: (body ++ '<' :: (cl ++ '>' :: rest)))) =
        scan { st with in_tag := true, tag_name := [] }
          (o ++ '>' :: (body ++ '<' :: (cl ++ '>' :: rest))) :=
      scan_step_lt st _
    have e2 : scan { st with in_tag := true, tag_name := [] }
          (o ++ '>' :: (body ++ '<' :: (cl ++ '>' :: rest))) =
        scan (processTag { st with in_tag := true, tag_name := o })
          (body ++ '<' :: (cl ++ '>' :: rest)) :=
      scanWrapTag o { st with in_tag := true, tag_name := [] } _ rfl h1 h2
    have e3 : scan (processTag { st with in_tag := true, tag_name := o })
          (body ++ '<' :: (cl ++ '>' :: rest)) =
        scan ({ st with in_tag := false, in_script := true, tag_name := [] } : ScanState)
          (body ++ '<' :: (cl ++ '>' :: rest)) :=
      congrArg (fun s => scan s (body ++ '<' :: (cl ++ '>' :: rest)))
        (processTag_script { st with in_tag := true, tag_name := o } ho)
    have e4 : scan ({ st with in_tag := false, in_script := true, tag_name := [] } : ScanState)
          (body ++ '<' :: (cl ++ '>' :: rest)) =
        scan ({ st with in_tag := false, in_script := true, tag_name := [] } : ScanState)
          ('<' :: (cl ++ '>' :: rest)) :=
      bodySkip body _ _ rfl (Or.inl rfl) hb
    have e5 : scan ({ st with in_tag := false, in_script := true, tag_name := [] } : ScanState)
          ('<' :: (cl ++ '>' :: rest)) =
        scan ({ st with in_tag := true, in_script := true, tag_name := [] } : ScanState)
          (cl ++ '>' :: rest) :=
      scan_step_lt _ _
    have e6 : scan ({ st with in_tag := true, in_script := true, tag_name := [] } : ScanState)
          (cl ++ '>' :: rest) =
        scan (processTag ({ st with in_tag := true, in_script := true, tag_name := cl } : ScanState)) rest :=
      scanWrapTag cl _ _ rfl h3 h4
    have e7 : scan (processTag ({ st with in_tag := true, in_script := true, tag_name := cl } : ScanState)) rest =
        scan ({ st with in_tag := false, in_script := false, tag_name := [] } : ScanState) rest :=
      congrArg (fun s => scan s rest) (processTag_closeScript _ hc)
    have e8 : ({ st with in_tag := false, in_script := false, tag_name := [] } : ScanState) = st := by
      obtain ⟨res, it, isc, ist, tn, fl⟩ := st
      have k1 : it = false := htag
      have k2 : isc = false := hsc
      have k3 : ist = false := hsst
      have k4 : tn = [] := htn
      subst k1; subst k2; subst k3; subst k4
      rfl
    have e9 : scan ({ st with in_tag := false, in_script := false, tag_name := [] } : ScanState) rest = scan st rest :=
      congrArg (fun s => scan s rest) e8
    exact e1.trans (e2.trans (e3.trans (e4.trans (e5.trans (e6.trans (e7.trans e9))))))
  · intro st o cl body rest htag hsc hsst htn ho hc h1 h2 h3 h4 hb
    have e1 : scan st ('<' :: (o ++ '>' :: (body ++ '<' :: (cl ++ '>' :: rest)))) =
        scan { st with in_tag := true, tag_name := [] }
          (o ++ '>' :: (body ++ '<' :: (cl ++ '>' :: rest))) :=
      scan_step_lt st _
    have e2 : scan { st with in_tag := true, tag_name := [] }
          (o ++ '>' :: (body ++ '<' :: (cl ++ '>' :: rest))) =
        scan (processTag { st with in_tag := true, tag_name := o })
          (body ++ '<' :: (cl ++ '>' :: rest)) :=
      scanWrapTag o { st with in_tag := true, tag_name := [] } _ rfl h1 h2
    have e3 : scan (processTag { st with in_tag := true, tag_name := o })
          (body ++ '<' :: (cl ++ '>' :: rest)) =
        scan ({ st with in_tag := false, in_style := true, tag_name := [] } : ScanState)
          (body ++ '<' :: (cl ++ '>' :: rest)) :=
      congrArg (fun s => scan s (body ++ '<' :: (cl ++ '>' :: rest)))
        (processTag_style { st with in_tag := true, tag_name := o } ho)
    have e4 : scan ({ st with in_tag := false, in_style := true, tag_name := [] } : ScanState)
          (body ++ '<' :: (cl ++ '>' :: rest)) =
        scan ({ st with in_tag := false, in_style := true, tag_name := [] } : ScanState)
          ('<' :: (cl ++ '>' :: rest)) :=
      bodySkip body _ _ rfl (Or.inr rfl) hb
    have e5 : scan ({ st with in_tag := false, in_style := true, tag_name := [] } : ScanState)
          ('<' :: (cl ++ '>' :: rest)) =
        scan ({ st with in_tag := true, in_style := true, tag_name := [] } : ScanState)
          (cl ++ '>' :: rest) :=
      scan_step_lt _ _
    have e6 : scan ({ st with in_tag := true, in_style := true, tag_name := [] } : ScanState)
          (cl ++ '>' :: rest) =
        scan (processTag ({ st with in_tag := true, in_style := true, tag_name := cl } : ScanState)) rest :=
      scanWrapTag cl _ _ rfl h3 h4
    have e7 : scan (processTag ({ st with in_tag := true, in_style := true, tag_name := cl } : ScanState)) rest =
        scan ({ st with in_tag := false, in_style := false, tag_name := [] } : ScanState) rest :=
      congrArg (fun s => scan s rest) (processTag_closeStyle _ hc)
    have e8 : ({ st with in_tag := false, in_style := false, tag_name := [] } : ScanState) = st := by
      obtain ⟨res, it, isc, ist, tn, fl⟩ := st
      have k1 : it = false := htag
      have k2 : isc = false := hsc
      have k3 : ist = false := hsst
      have k4 : tn = [] := htn
      subst k1; subst k2; subst k3; subst k4
      rfl
    have e9 : scan ({ st with in_tag := false, in_style := false, tag_name := [] } : ScanState) rest = scan st rest :=
      congrArg (fun s => scan s rest) e8
    exact e1.trans (e2.trans (e3.trans (e4.trans (e5.trans (e6.trans (e7.trans e9))))))

theorem c3_amended_script_style_element_witness :
    lowerAll "SCRIPT".data = "script".data ∧
      scan
        { result := "a".data, in_tag := false, in_script := false, in_style := false,
          tag_name := [], last_char_was_space := false }
        ('<' :: ("SCRIPT".data ++ '>' :: ("var x = 1 &amp; 2;".data ++
          '<' :: ("/script".data ++ '>' :: "hi".data)))) =
        scan
          { result := "a".data, in_tag := false, in_script := false, in_style := false,
            tag_name := [], last_char_was_space := false }
          "hi".data :=
  ⟨by decide,
    c3_amended_script_style_element.1
      { result := "a".data, in_tag := false, in_script := false, in_style := false,
        tag_name := [], last_char_was_space := false }
      "SCRIPT".data "/script".data "var x = 1 &amp; 2;".data "hi".data
      rfl rfl rfl rfl (by decide) (by decide) (by decide) (by decide) (by decide)
      (by decide) (by decide)⟩

end Browser

namespace Browser

theorem decode_length (e : List Char) (he : e ≠ []) :
    (decodeHtmlEntity e).length ≤ e.length := by
  have hp : 0 < e.length := List.length_pos.mpr he
  by_cases h1 : e = "&nbsp;".data
  · subst h1; decide
  by_cases h2 : e = "&lt;".data
  · subst h2; decide
  by_cases h3 : e = "&gt;".data
  · subst h3; decide
  by_cases h4 : e = "&amp;".data
  · subst h4; decide
  by_cases h5 : e = "&quot;".data
  · subst h5; decide
  by_cases h6 : e = "&apos;".data
  · subst h6; decide
  by_cases h7 : e = "&copy;".data
  · subst h7; decide
  by_cases h8 : e = "&reg;".data
  · subst h8; decide
  by_cases h9 : e = "&trade;".data
  · subst h9; decide
  by_cases h10 : e = "&mdash;".data
  · subst h10; decide
  by_cases h11 : e = "&ndash;".data
  · subst h11; decide
  by_cases h12 : e = "&hellip;".data
  · subst h12; decide
  by_cases h13 : e = "&bull;".data
  · subst h13; decide
  unfold decodeHtmlEntity
  rw [if_neg h1, if_neg h2, if_neg h3, if_neg h4, if_neg h5, if_neg h6, if_neg h7,
    if_neg h8, if_neg h9, if_neg h10, if_neg h11, if_neg h12, if_neg h13]
  split
  · split
    · split
      · exact hp
      · exact le_refl _
    · exact le_refl _
  · split
    · split
      · split
        · exact hp
        · exact le_refl _
      · exact le_refl _
    · exact le_refl _

theorem processTag_result_len (st : ScanState) :
    (processTag st).result.length ≤ st.result.length + 1 := by
  simp only [processTag]
  split_ifs <;> simp

theorem textStep_result_len (st : ScanState) (c : Char) :
    (textStep st c).result.length ≤ st.result.length + 1 := by
  simp only [textStep]
  split_ifs <;> simp

theorem scanA_result_len : ∀ (f : Nat) (st : ScanState) (l : List Char),
    (scanA f st l).result.length ≤ st.result.length + l.length := by
  intro f
  induction f with
  | zero =>
    intro st l
    cases l with
    | nil => exact Nat.le_add_right _ _
    | cons c r => exact Nat.le_add_right _ _
  | succ f ih =>
    intro st l
    cases l with
    | nil => rw [scanA_nil]; exact Nat.le_add_right _ _
    | cons c rest =>
      rw [scanA_succ]
      simp only [List.length_cons]
      by_cases h1 : c = '<'
      · simp only [if_pos h1]
        have h := ih { st with in_tag := true, tag_name := [] } rest
        have h2 : ({ st with in_tag := true, tag_name := [] } : ScanState).result =
            st.result := rfl
        rw [h2] at h
        omega
      · simp only [if_neg h1]
        by_cases h2 : st.in_tag = true
        · simp only [if_pos h2]
          by_cases h3 : c = '>'
          · simp only [if_pos h3]
            have h := ih (processTag st) rest
            have hb := processTag_result_len st
            omega
          · simp only [if_neg h3]
            have h := ih { st with tag_name := st.tag_name ++ [c] } rest
            have h4 : ({ st with tag_name := st.tag_name ++ [c] } : ScanState).result =
                st.result := rfl
            rw [h4] at h
            omega
        · simp only [if_neg h2]
          by_cases h5 : st.in_script = true ∨ st.in_style = true
          · simp only [if_pos h5]
            have h := ih st rest
            omega
          · simp only [if_neg h5]
            by_cases h6 : c = '&'
            · simp only [if_pos h6]
              split
              · rename_i endPos heq
                have h := ih
                  { st with
                    result := st.result ++
                      decodeHtmlEntity ((c :: rest).take (endPos + 1)),
                    last_char_was_space :=
                      wsLast (decodeHtmlEntity ((c :: rest).take (endPos + 1))) }
                  ((c :: rest).drop (endPos + 1))
                have h4 : ({ st with
                    result := st.result ++
                      decodeHtmlEntity ((c :: rest).take (endPos + 1)),
                    last_char_was_space :=
                      wsLast (decodeHtmlEntity ((c :: rest).take (endPos + 1))) } :
                    ScanState).result =
                    st.result ++ decodeHtmlEntity ((c :: rest).take (endPos + 1)) := rfl
                rw [h4, List.length_append] at h
                have hne : (c :: rest).take (endPos + 1) ≠ [] := by
                  rw [List.take_succ_cons]
                  exact List.cons_ne_nil _ _
                have hdl := decode_length _ hne
                have htk1 : ((c :: rest).take (endPos + 1)).length ≤ endPos + 1 :=
                  List.length_take_le _ _
                have htk2 : ((c :: rest).take (endPos + 1)).length ≤ rest.length + 1 := by
                  simp
                have hdr : ((c :: rest).drop (endPos + 1)).length =
                    rest.length + 1 - (endPos + 1) := by
                  rw [List.length_drop, List.length_cons]
                omega
              · have h := ih (textStep st c) rest
                have hb := textStep_result_len st c
                omega
            · simp only [if_neg h6]
              have h := ih (textStep st c) rest
              have hb := textStep_result_len st c
              omega

theorem cleanAux_len (l : List Char) : ∀ b : Bool,
    (cleanNewlinesAux b l).length ≤ l.length := by
  induction l with
  | nil => intro b; exact le_refl _
  | cons c r ih =>
    intro b
    simp only [cleanNewlinesAux]
    split_ifs with hc hb
    · exact le_trans (ih true) (Nat.le_succ _)
    · simp only [List.length_cons]
      exact Nat.succ_le_succ (ih true)
    · simp only [List.length_cons]
      exact Nat.succ_le_succ (ih false)

theorem trimBoth_len (l : List Char) : (trimBoth l).length ≤ l.length := by
  have h1 := (List.dropWhile_suffix (l := (l.dropWhile isWs).reverse) isWs).sublist.length_le
  have h2 := (List.dropWhile_suffix (l := l) isWs).sublist.length_le
  simp only [trimBoth, List.length_reverse]
  simp only [List.length_reverse] at h1
  omega

/-- C9: the converter is total: the embedded scan is a terminating
function of the input (the fuel argument, initialised to the input
length, is always sufficient because every iteration consumes at least
one character, and scanA_fuel_irrel shows the bound is irrelevant);
the empty input yields the empty text, and the output never exceeds
the input in length, so a result is always returned with all reads in
bounds and memory at most proportional to the input. -/
theorem c9_total_and_linear :
    htmlToText [] = [] ∧ ∀ l : List Char, (htmlToText l).length ≤ l.length := by
  constructor
  · rfl
  · intro l
    have h1 : (scan initState l).result.length ≤ 0 + l.length :=
      scanA_result_len l.length initState l
    have h2 := trimBoth_len (scan initState l).result
    have h3 := cleanAux_len (trimBoth (scan initState l).result) false
    simp only [htmlToText]
    omega

end Browser

namespace Browser

theorem dropWhile_head_not (p : Char → Bool) : ∀ (l : List Char) (x : Char) (xs : List Char),
    List.dropWhile p l = x :: xs → p x = false := by
  intro l
  induction l with
  | nil => intro x xs h; simp [List.dropWhile] at h
  | cons c r ih =>
    intro x xs h
    by_cases hc : p c = true
    · rw [List.dropWhile_cons_of_pos hc] at h
      exact ih x xs h
    · rw [List.dropWhile_cons_of_neg hc] at h
      injection h with hcx _
      subst hcx
      revert hc
      cases p c <;> simp

theorem dropWhile_getLast (p : Char → Bool) : ∀ l : List Char,
    List.dropWhile p l ≠ [] → (List.dropWhile p l).getLast? = l.getLast? := by
  intro l
  induction l with
  | nil => intro h; simp [List.dropWhile] at h
  | cons c r ih =>
    intro h
    by_cases hc : p c = true
    · rw [List.dropWhile_cons_of_pos hc] at h ⊢
      rw [ih h]
      have hr : r ≠ [] := by
        rintro rfl
        simp [List.dropWhile] at h
      cases r with
      | nil => exact absurd rfl hr
      | cons y t => rw [List.getLast?_cons_cons]
    · rw [List.dropWhile_cons_of_neg hc]

theorem mem_of_mem_trimBoth (a : Char) (l : List Char) (h : a ∈ trimBoth l) : a ∈ l := by
  simp only [trimBoth, List.mem_reverse] at h
  have h1 : a ∈ (l.dropWhile isWs).reverse := (List.dropWhile_suffix isWs).sublist.subset h
  rw [List.mem_reverse] at h1
  exact (List.dropWhile_suffix isWs).sublist.subset h1

theorem newline_not_mem_collapseRuns : ∀ (n : Nat) (l : List Char), l.length ≤ n →
    '\n' ∉ collapseRuns l := by
  intro n
  induction n with
  | zero =>
    intro l hl
    obtain rfl : l = [] := List.length_eq_zero.mp (Nat.le_zero.mp hl)
    simp [collapseRuns]
  | succ n ih =>
    intro l hl
    cases l with
    | nil => simp [collapseRuns]
    | cons c r =>
      simp only [List.length_cons] at hl
      have hr : r.length ≤ n := by omega
      by_cases hc : isWs c = true
      · simp only [collapseRuns, if_pos hc, List.mem_cons]
        rintro (habs | habs)
        · exact absurd habs (by decide)
        · exact ih (r.dropWhile isWs)
            (le_trans (List.dropWhile_suffix isWs).sublist.length_le hr) habs
      · simp only [collapseRuns, if_neg hc, List.mem_cons]
        rintro (habs | habs)
        · rw [← habs] at hc
          exact hc (by decide)
        · exact ih r hr habs

theorem cleanAux_eq_self (l : List Char) (h : '\n' ∉ l) : ∀ b : Bool,
    cleanNewlinesAux b l = l := by
  induction l with
  | nil => intro b; rfl
  | cons c r ih =>
    intro b
    have hc : ¬(c = '\n') := by rintro rfl; exact h (List.mem_cons_self _ _)
    have hr : '\n' ∉ r := fun m => h (List.mem_cons_of_mem c m)
    simp only [cleanNewlinesAux, if_neg hc]
    rw [ih hr false]

theorem collapse2_eq_collapseRuns : ∀ (n : Nat) (l : List Char), l.length ≤ n →
    collapse2 false l = collapseRuns l ∧
      collapse2 true l = collapseRuns (l.dropWhile isWs) := by
  intro n
  induction n with
  | zero =>
    intro l hl
    obtain rfl : l = [] := List.length_eq_zero.mp (Nat.le_zero.mp hl)
    constructor <;> simp [collapse2, collapseRuns, List.dropWhile]
  | succ n ih =>
    intro l hl
    cases l with
    | nil => constructor <;> simp [collapse2, collapseRuns, List.dropWhile]
    | cons c r =>
      simp only [List.length_cons] at hl
      have hr : r.length ≤ n := by omega
      by_cases hc : isWs c = true
      · constructor
        · simp only [collapse2, if_pos hc, if_neg (by decide : ¬(false = true)),
            collapseRuns]
          rw [(ih r hr).2]
        · simp only [collapse2, if_pos hc, if_pos rfl, List.dropWhile_cons_of_pos hc]
          exact (ih r hr).2
      · constructor
        · simp only [collapse2, if_neg hc, collapseRuns]
          rw [(ih r hr).1]
        · simp only [collapse2, if_neg hc, List.dropWhile_cons_of_neg hc, collapseRuns]
          rw [(ih r hr).1]

theorem scan_text_collapse (l : List Char) : ∀ st : ScanState,
    '<' ∉ l → '&' ∉ l → st.in_tag = false → st.in_script = false → st.in_style = false →
    st.result ≠ [] →
    (scan st l).result = st.result ++ collapse2 st.last_char_was_space l := by
  induction l with
  | nil => intro st _ _ _ _ _ _; simp [scan_nil, collapse2]
  | cons c r ih =>
    intro st h1 h2 htag hsc hst hres
    have hc1 : c ≠ '<' := by rintro rfl; exact h1 (List.mem_cons_self _ _)
    have hc2 : c ≠ '&' := by rintro rfl; exact h2 (List.mem_cons_self _ _)
    have hr1 : '<' ∉ r := fun m => h1 (List.mem_cons_of_mem c m)
    have hr2 : '&' ∉ r := fun m => h2 (List.mem_cons_of_mem c m)
    rw [scan_step_text st c r hc1 htag hsc hst hc2]
    by_cases hws : isWs c = true
    · by_cases hflag : st.last_char_was_space = true
      · have ht : textStep st c = st := by
          simp only [textStep, if_pos hws]
          rw [if_neg]
          simp [hflag]
        rw [ht, ih st hr1 hr2 htag hsc hst hres, hflag]
        simp [collapse2, hws]
      · have hfl : st.last_char_was_space = false := by
          revert hflag; cases st.last_char_was_space <;> simp
        have ht : textStep st c = { st with result := st.result ++ [' '], last_char_was_space := true } := by
          simp only [textStep, if_pos hws]
          rw [if_pos ⟨hfl, hres⟩]
        rw [ht, ih { st with result := st.result ++ [' '], last_char_was_space := true } hr1 hr2 htag hsc hst (by simp), hfl]
        simp [collapse2, hws, List.append_assoc]
    · have ht : textStep st c = { st with result := st.result ++ [c], last_char_was_space := false } := by
        simp only [textStep]
        rw [if_neg hws]
      rw [ht, ih { st with result := st.result ++ [c], last_char_was_space := false } hr1 hr2 htag hsc hst (by simp)]
      simp [collapse2, hws, List.append_assoc]

theorem scan_init_collapse (l : List Char) : '<' ∉ l → '&' ∉ l →
    (scan initState l).result = collapseRuns (l.dropWhile isWs) := by
  induction l with
  | nil => intro _ _; simp [scan_nil, collapseRuns, List.dropWhile, initState]
  | cons c r ih =>
    intro h1 h2
    have hc1 : c ≠ '<' := by rintro rfl; exact h1 (List.mem_cons_self _ _)
    have hc2 : c ≠ '&' := by rintro rfl; exact h2 (List.mem_cons_self _ _)
    have hr1 : '<' ∉ r := fun m => h1 (List.mem_cons_of_mem c m)
    have hr2 : '&' ∉ r := fun m => h2 (List.mem_cons_of_mem c m)
    rw [scan_step_text initState c r hc1 rfl rfl rfl hc2]
    by_cases hws : isWs c = true
    · have ht : textStep initState c = initState := by
        simp [textStep, if_pos hws, initState]
      rw [ht, ih hr1 hr2, List.dropWhile_cons_of_pos hws]
    · have ht : textStep initState c = { initState with result := initState.result ++ [c], last_char_was_space := false } := by
        simp only [textStep]
        rw [if_neg hws]
      rw [ht, scan_text_collapse r { initState with result := initState.result ++ [c], last_char_was_space := false } hr1 hr2 rfl rfl rfl (by simp [initState])]
      rw [List.dropWhile_cons_of_neg hws]
      simp only [collapseRuns, if_neg hws]
      rw [(collapse2_eq_collapseRuns r.length r (le_refl _)).1]
      simp [initState]

theorem dropWhile_collapseRuns_stable (l : List Char) :
    List.dropWhile isWs (collapseRuns (List.dropWhile isWs l)) =
      collapseRuns (List.dropWhile isWs l) := by
  cases hd : List.dropWhile isWs l with
  | nil => simp [collapseRuns, List.dropWhile]
  | cons x xs =>
    have hx : isWs x = false := dropWhile_head_not isWs l x xs hd
    simp only [collapseRuns, if_neg (by simp [hx] : ¬(isWs x = true))]
    rw [List.dropWhile_cons_of_neg (by simp [hx])]

theorem dropWhile_collapseRuns (l : List Char) :
    List.dropWhile isWs (collapseRuns l) = collapseRuns (List.dropWhile isWs l) := by
  cases l with
  | nil => simp [collapseRuns, List.dropWhile]
  | cons c r =>
    by_cases hc : isWs c = true
    · simp only [collapseRuns, if_pos hc]
      rw [List.dropWhile_cons_of_pos (by decide : isWs ' ' = true),
        List.dropWhile_cons_of_pos hc]
      exact dropWhile_collapseRuns_stable r
    · simp only [collapseRuns, if_neg hc]
      rw [List.dropWhile_cons_of_neg hc, List.dropWhile_cons_of_neg hc]
      simp only [collapseRuns, if_neg hc]

theorem trimBoth_collapse (l : List Char) :
    trimBoth (collapseRuns l) = trimBoth (collapseRuns (List.dropWhile isWs l)) := by
  simp only [trimBoth, dropWhile_collapseRuns, List.dropWhile_idempotent]

/-- C6: for an input containing neither a left angle bracket nor an
ampersand, the converter's output is the input with every maximal run
of whitespace characters replaced by a single space (collapseRuns) and
leading and trailing whitespace removed (trimBoth). -/
theorem c6_whitespace_normalisation (l : List Char) (h1 : '<' ∉ l) (h2 : '&' ∉ l) :
    htmlToText l = trimBoth (collapseRuns l) := by
  simp only [htmlToText]
  rw [scan_init_collapse l h1 h2]
  rw [show trimBoth (collapseRuns l) = trimBoth (collapseRuns (List.dropWhile isWs l))
    from trimBoth_collapse l]
  refine cleanAux_eq_self _ ?_ false
  intro hmem
  have h3 := mem_of_mem_trimBoth _ _ hmem
  exact newline_not_mem_collapseRuns (List.dropWhile isWs l).length _ (le_refl _) h3

theorem c6_whitespace_normalisation_witness :
    ('<' ∉ "  a \t b  ".data) ∧
      htmlToText "  a \t b  ".data = trimBoth (collapseRuns "  a \t b  ".data) :=
  ⟨by decide, c6_whitespace_normalisation _ (by decide) (by decide)⟩

end Browser

namespace Browser

theorem getLast_cons_ne_nil (x : Char) (m : List Char) (h : m ≠ []) :
    (x :: m).getLast? = m.getLast? := by
  cases m with
  | nil => exact absurd rfl h
  | cons y t => rw [List.getLast?_cons_cons]

theorem cleanAux_true_head : ∀ (l : List Char) (c : Char),
    (cleanNewlinesAux true l).head? = some c → c ≠ '\n' := by
  intro l
  induction l with
  | nil => intro c h; simp [cleanNewlinesAux] at h
  | cons x r ih =>
    intro c h
    by_cases hx : x = '\n'
    · rw [show cleanNewlinesAux true (x :: r) = cleanNewlinesAux true r from by
        simp [cleanNewlinesAux, hx]] at h
      exact ih c h
    · rw [show cleanNewlinesAux true (x :: r) = x :: cleanNewlinesAux false r from by
        simp [cleanNewlinesAux, hx]] at h
      simp only [List.head?_cons, Option.some.injEq] at h
      subst h
      exact hx

theorem hasDD_cleanAux : ∀ (l : List Char) (b : Bool),
    hasDoubleNewline (cleanNewlinesAux b l) = false := by
  intro l
  induction l with
  | nil => intro b; rfl
  | cons x r ih =>
    intro b
    by_cases hx : x = '\n'
    · by_cases hb : b = true
      · rw [show cleanNewlinesAux b (x :: r) = cleanNewlinesAux true r from by
          simp [cleanNewlinesAux, hx, hb]]
        exact ih true
      · have hbf : b = false := by revert hb; cases b <;> simp
        rw [show cleanNewlinesAux b (x :: r) = x :: cleanNewlinesAux true r from by
          simp [cleanNewlinesAux, hx, hbf]]
        cases hm : cleanNewlinesAux true r with
        | nil => rfl
        | cons d m =>
          have hd : d ≠ '\n' := cleanAux_true_head r d (by rw [hm]; rfl)
          have ht := ih true
          rw [hm] at ht
          simp [hasDoubleNewline, hd, ht]
    · rw [show cleanNewlinesAux b (x :: r) = x :: cleanNewlinesAux false r from by
        simp [cleanNewlinesAux, hx]]
      cases hm : cleanNewlinesAux false r with
      | nil => rfl
      | cons d m =>
        have ht := ih false
        rw [hm] at ht
        simp [hasDoubleNewline, hx, ht]

theorem cleanAux_false_head (l : List Char) :
    (cleanNewlinesAux false l).head? = l.head? := by
  cases l with
  | nil => rfl
  | cons x r =>
    by_cases hx : x = '\n'
    · simp [cleanNewlinesAux, hx]
    · simp [cleanNewlinesAux, hx]

theorem cleanAux_getLast : ∀ (l : List Char) (b : Bool) (c : Char),
    l.getLast? = some c → c ≠ '\n' → (cleanNewlinesAux b l).getLast? = some c := by
  intro l
  induction l with
  | nil => intro b c h _; simp at h
  | cons x r ih =>
    intro b c h hc
    cases r with
    | nil =>
      simp only [List.getLast?_singleton, Option.some.injEq] at h
      subst h
      simp [cleanNewlinesAux, hc]
    | cons y t =>
      have hlast : (y :: t).getLast? = some c := by
        rw [← List.getLast?_cons_cons (a := x)]
        exact h
      have hne1 : cleanNewlinesAux true (y :: t) ≠ [] := by
        intro habs
        have hr := ih true c hlast hc
        rw [habs] at hr
        simp at hr
      have hne2 : cleanNewlinesAux false (y :: t) ≠ [] := by
        intro habs
        have hr := ih false c hlast hc
        rw [habs] at hr
        simp at hr
      by_cases hx : x = '\n'
      · by_cases hb : b = true
        · rw [show cleanNewlinesAux b (x :: y :: t) = cleanNewlinesAux true (y :: t)
            from by simp [cleanNewlinesAux, hx, hb]]
          exact ih true c hlast hc
        · have hbf : b = false := by revert hb; cases b <;> simp
          rw [show cleanNewlinesAux b (x :: y :: t) = x :: cleanNewlinesAux true (y :: t)
            from by simp [cleanNewlinesAux, hx, hbf]]
          rw [getLast_cons_ne_nil x _ hne1]
          exact ih true c hlast hc
      · rw [show cleanNewlinesAux b (x :: y :: t) = x :: cleanNewlinesAux false (y :: t)
          from by simp [cleanNewlinesAux, hx]]
        rw [getLast_cons_ne_nil x _ hne2]
        exact ih false c hlast hc

theorem trimBoth_head_not_ws (l : List Char) (c : Char)
    (h : (trimBoth l).head? = some c) : isWs c = false := by
  unfold trimBoth at h
  rw [List.head?_reverse] at h
  have hne : List.dropWhile isWs (List.dropWhile isWs l).reverse ≠ [] := by
    intro habs
    rw [habs] at h
    simp at h
  rw [dropWhile_getLast _ _ hne, List.getLast?_reverse] at h
  cases hd : List.dropWhile isWs l with
  | nil => rw [hd] at h; simp at h
  | cons x xs =>
    rw [hd] at h
    simp only [List.head?_cons, Option.some.injEq] at h
    subst h
    exact dropWhile_head_not isWs l _ _ hd

theorem trimBoth_getLast_not_ws (l : List Char) (c : Char)
    (h : (trimBoth l).getLast? = some c) : isWs c = false := by
  unfold trimBoth at h
  rw [List.getLast?_reverse] at h
  cases hd : List.dropWhile isWs (List.dropWhile isWs l).reverse with
  | nil => rw [hd] at h; simp at h
  | cons x xs =>
    rw [hd] at h
    simp only [List.head?_cons, Option.some.injEq] at h
    subst h
    exact dropWhile_head_not isWs _ _ _ hd

/-- C7: for every input the final text contains no two consecutive
newline characters (hasDoubleNewline is false), and its first and last
characters, when they exist, are not whitespace: the second pass runs
over the trimmed main-pass output and drops a newline whose previously
emitted character was also a newline. -/
theorem c7_no_double_newline_trimmed (s : List Char) :
    hasDoubleNewline (htmlToText s) = false ∧
      ((htmlToText s).head?.all fun c => !isWs c) = true ∧
      ((htmlToText s).getLast?.all fun c => !isWs c) = true := by
  refine ⟨hasDD_cleanAux _ false, ?_, ?_⟩
  · simp only [htmlToText]
    rw [cleanAux_false_head]
    cases hh : (trimBoth (scan initState s).result).head? with
    | none => rfl
    | some c =>
      have hws := trimBoth_head_not_ws _ _ hh
      simp [Option.all, hws]
  · simp only [htmlToText]
    cases hh : (trimBoth (scan initState s).result).getLast? with
    | none =>
      have hT : trimBoth (scan initState s).result = [] := by
        cases hT2 : trimBoth (scan initState s).result with
        | nil => rfl
        | cons a m =>
          rw [hT2] at hh
          rw [List.getLast?_eq_none_iff] at hh
          exact absurd hh (List.cons_ne_nil a m)
      rw [hT]
      rfl
    | some c =>
      have hws := trimBoth_getLast_not_ws _ _ hh
      have hc : c ≠ '\n' := by
        intro habs
        rw [habs] at hws
        exact absurd hws (by decide)
      rw [cleanAux_getLast _ false c hh hc]
      simp [Option.all, hws]

end Browser
